import Mathlib

/-!
Verification of the MidiConvert core (`src/Midi.js`).

The data model and operations below are a shallow embedding of the source:
JS numbers used as times/velocities/tempi become `ℚ`, channel/instrument
fields with the `-1` sentinel become `ℤ`, JS arrays become `List`, and the
in-place mutation of note/control-change fields is turned into explicit
value-passing.  Collaborator files that are not part of the sources
(`Track.js`, `Util.js`, `BinaryInsert.js`, `Control.js`, `Header.js`) are
modelled from the specification where needed; each such definition carries a
doc comment starting with `Modelled from the spec:`.
-/

set_option maxHeartbeats 1000000

namespace MidiConvert

/-- The Midi header (Midi.js constructor defaults, lines 31-41; field set per
spec §3 since `Header.js` is not among the sources). -/
structure Header where
  name : Option String := none
  bpm : ℚ := 120
  timeSignature : ℕ × ℕ := (4, 4)
  PPQ : ℚ := 480
deriving DecidableEq

/-- A note (spec §3; `Note.js`/`Track.js` are not among the sources, the
fields are the ones Midi.js reads and writes: time, duration, channel,
instrument, plus the payload fields pitch and velocity). -/
structure Note where
  pitch : ℕ
  time : ℚ
  duration : ℚ
  velocity : ℚ
  channel : ℤ
  instrument : ℤ
deriving DecidableEq

/-- Key of the `controlChanges` map: a controller number, or the symbolic
`pitchBend` key used by Midi.js line 165. -/
inductive CCKey where
  | num (n : ℕ)
  | pitchBend
deriving DecidableEq

/-- A control change (spec §3): its controller id is the `CCKey` it is stored
under in a track's `controlChanges` map. -/
structure ControlChange where
  time : ℚ
  value : ℚ
  channel : ℤ
  instrument : ℤ
deriving DecidableEq

/-- A track (spec §3; `Track.js` is not among the sources, the fields are the
ones Midi.js uses).  The `controlChanges` JS object is embedded as an
association list in key-insertion order, which is the order `Object.keys`
iterates it in. -/
structure Track where
  id : ℤ := 0
  name : Option String := none
  channelNumber : ℤ := -1
  instrumentNumber : ℤ := -1
  notes : List Note := []
  controlChanges : List (CCKey × List ControlChange) := []
deriving DecidableEq

/-- The Midi root object (Midi.js constructor). -/
structure Midi where
  header : Header := {}
  tracks : List Track := []
deriving DecidableEq

/-- A tempo-change entry: `new Control(null, absoluteTime, newBpm)`
(Midi.js line 151).  `Control.js` is not among the sources; per spec §3 a
TempoBreakpoint is a (time, beats-per-minute) pair, `value` holding the BPM. -/
structure Control where
  time : ℚ
  value : ℚ
deriving DecidableEq

/-- Modelled from the spec: `ticksToSeconds` lives in `src/Util.js`, which is
not among the sources.  Spec §4.1 gives the formula
`deltaTicks / pulsesPerQuarter * (60 / beatsPerMinute)`. -/
def ticksToSeconds (ticks : ℚ) (header : Header) : ℚ :=
  ticks / header.PPQ * (60 / header.bpm)

/-- Modelled from the spec: `BinaryInsert` lives in `src/BinaryInsert.js`,
which is not among the sources.  Spec §4.2 contract: locate the rightmost
existing position whose time is ≤ the new entry's time over the
already-sorted sequence and insert immediately after it, so equal-time
entries land after existing equal-time entries.  On a sorted list this is
exactly: walk past every element with time ≤ the new time, insert there. -/
def BinaryInsert (l : List Control) (c : Control) : List Control :=
  match l with
  | [] => [c]
  | x :: xs => if x.time ≤ c.time then x :: BinaryInsert xs c else c :: x :: xs

/-- The tempo-change list decode builds: sequential `BinaryInsert` calls
starting from the empty array (Midi.js lines 87, 149-152). -/
def tempoFold (cs : List Control) : List Control :=
  cs.foldl BinaryInsert []

/-- A demuxed event token, as delivered by the external byte-codec
(midi-file-parser).  Channel events carry their channel; meta events do not. -/
inductive MEvent where
  | noteOn (channel pitch : ℕ) (velocity : ℚ)
  | noteOff (channel pitch : ℕ)
  | controller (channel controllerType : ℕ) (value : ℚ)
  | programChange (channel programNumber : ℕ)
  | pitchBend (channel : ℕ) (value : ℚ)
  | trackName (text : String)
  | instrumentName (text : String)
  | setTempo (microsecondsPerBeat : ℚ)
deriving DecidableEq

/-- The `event.channel` field: `some c` for channel events, `none` for meta
events (JS `undefined`). -/
def MEvent.channelField : MEvent → Option ℕ
  | .noteOn c _ _ => some c
  | .noteOff c _ => some c
  | .controller c _ _ => some c
  | .programChange c _ => some c
  | .pitchBend c _ => some c
  | _ => none

/-- One event's effect on `track.channelNumber` during demuxing
(Midi.js lines 105-127): line 107 assigns `event.channel` when it is truthy
(present and nonzero, by JS truthiness) and the track has no channel yet;
the note-on branch (lines 121-127) additionally assigns even a zero channel
when none is set. -/
def stepChannelNumber (cn : ℤ) (e : MEvent) : ℤ :=
  let cn1 :=
    match e.channelField with
    | some c => if c ≠ 0 ∧ cn = -1 then (c : ℤ) else cn
    | none => cn
  match e with
  | .noteOn c _ _ => if cn1 = -1 then (c : ℤ) else cn1
  | _ => cn1

/-- The `channelNumber` a raw track ends up with after demuxing its event
stream (initial value `-1`, from the Track default). -/
def demuxChannelNumber (evs : List MEvent) : ℤ :=
  evs.foldl stepChannelNumber (-1)

/-- The while-loop of `applyTempo` (Midi.js lines 387-392): advance through
the breakpoints while the next one starts at or before the element's nominal
time, accumulating `newTime += (next.time - oldTime) * speed` with
`oldTime = current.time` and `speed = bpm / current.value`.  Returns the
final current breakpoint, the remaining later breakpoints, and `newTime`. -/
def advanceLoop (bpm t : ℚ) : Control → List Control → ℚ → Control × List Control × ℚ
  | cur, [], newTime => (cur, [], newTime)
  | cur, next :: rest, newTime =>
    if next.time ≤ t then
      advanceLoop bpm t next rest (newTime + (next.time - cur.time) * (bpm / cur.value))
    else (cur, next :: rest, newTime)

/-- `applyTempo` over a note list (Midi.js lines 367-399): the persistent
state across elements is the current breakpoint (`changes[index]`, split here
into `cur` and the remaining suffix `rest`) and `newTime`; `oldTime` and
`speed` are recomputed from `changes[index]` on every non-skipped element.
Elements with `time < cur.time` are left unchanged; otherwise time is
rewritten to `(time - oldTime) * speed + newTime` and the duration is scaled
by `speed`. -/
def applyTempoNotes (bpm : ℚ) : Control → List Control → ℚ → List Note → List Note
  | _, _, _, [] => []
  | cur, rest, newTime, n :: ns =>
    if n.time < cur.time then
      n :: applyTempoNotes bpm cur rest newTime ns
    else
      let res := advanceLoop bpm n.time cur rest newTime
      { n with
        time := (n.time - res.1.time) * (bpm / res.1.value) + res.2.2,
        duration := n.duration * (bpm / res.1.value) } ::
        applyTempoNotes bpm res.1 res.2.1 res.2.2 ns

/-- `applyTempo` over a control-change list: identical scan, but control
changes carry no `duration` (the `element.duration !== undefined` guard at
Midi.js line 396 fails), so only `time` is rewritten. -/
def applyTempoCCs (bpm : ℚ) : Control → List Control → ℚ → List ControlChange → List ControlChange
  | _, _, _, [] => []
  | cur, rest, newTime, c :: cs =>
    if c.time < cur.time then
      c :: applyTempoCCs bpm cur rest newTime cs
    else
      let res := advanceLoop bpm c.time cur rest newTime
      { c with time := (c.time - res.1.time) * (bpm / res.1.value) + res.2.2 } ::
        applyTempoCCs bpm res.1 res.2.1 res.2.2 cs

/-- `Midi.applyTempoChanges(changes, bpm)` (Midi.js lines 362-410): no-op on
an empty change list; otherwise every track's note list and every
controller's change list is warped by a fresh scan (state
`oldTime = 0, newTime = 0, index = 0, speed = 1` per element collection). -/
def applyTempoChanges (changes : List Control) (bpm : ℚ) (m : Midi) : Midi :=
  match changes with
  | [] => m
  | c0 :: cs =>
    { m with
      tracks := m.tracks.map fun track =>
        { track with
          notes := applyTempoNotes bpm c0 cs 0 track.notes,
          controlChanges := track.controlChanges.map fun kl =>
            (kl.1, applyTempoCCs bpm c0 cs 0 kl.2) } }

/-- Channel resolution during splitting (Midi.js lines 195-197, 210-212):
the element's own channel if set (not `-1`), else the raw track's. -/
def resolveChannel (trackChannel c : ℤ) : ℤ :=
  if c = -1 then trackChannel else c

/-- Instrument resolution during splitting (Midi.js lines 198-203, 213-219):
the element's own instrument if set, else the raw track's, else `0`. -/
def resolveInstrument (trackInstrument i : ℤ) : ℤ :=
  if i = -1 then (if trackInstrument = -1 then 0 else trackInstrument) else i

/-- A note after the splitter's in-place field resolution. -/
def resolveNote (t : Track) (n : Note) : Note :=
  { n with
    channel := resolveChannel t.channelNumber n.channel,
    instrument := resolveInstrument t.instrumentNumber n.instrument }

/-- A control change after the splitter's in-place field resolution. -/
def resolveCC (t : Track) (c : ControlChange) : ControlChange :=
  { c with
    channel := resolveChannel t.channelNumber c.channel,
    instrument := resolveInstrument t.instrumentNumber c.instrument }

/-- Push a note into the sub-track keyed by (channel, instrument), creating
the sub-track on first use (`getSubtrack`, Midi.js lines 182-191; the
two-level `subTracks[channel][instrument]` array is embedded as an
association list over the pair key). -/
def pushNote (subs : List Track) (name : Option String) (ch inst : ℤ) (n : Note) : List Track :=
  match subs with
  | [] => [{ name := name, channelNumber := ch, instrumentNumber := inst,
             notes := [n], controlChanges := [] }]
  | e :: rest =>
    if e.channelNumber = ch ∧ e.instrumentNumber = inst then
      { e with notes := e.notes ++ [n] } :: rest
    else e :: pushNote rest name ch inst n

/-- Append a control change under its controller key inside one sub-track's
`controlChanges` map (Midi.js lines 220-224). -/
def ccListPush (m : List (CCKey × List ControlChange)) (k : CCKey) (c : ControlChange) :
    List (CCKey × List ControlChange) :=
  match m with
  | [] => [(k, [c])]
  | (k1, l) :: rest =>
    if k1 = k then (k1, l ++ [c]) :: rest else (k1, l) :: ccListPush rest k c

/-- Push a control change into the sub-track keyed by (channel, instrument),
creating the sub-track on first use. -/
def pushCC (subs : List Track) (name : Option String) (ch inst : ℤ) (k : CCKey)
    (c : ControlChange) : List Track :=
  match subs with
  | [] => [{ name := name, channelNumber := ch, instrumentNumber := inst,
             notes := [], controlChanges := [(k, [c])] }]
  | e :: rest =>
    if e.channelNumber = ch ∧ e.instrumentNumber = inst then
      { e with controlChanges := ccListPush e.controlChanges k c } :: rest
    else e :: pushCC rest name ch inst k c

/-- The per-raw-track grouping pass of the splitter (Midi.js lines 193-226):
all notes in order, then all control changes key by key, each resolved and
pushed into the sub-track for its (channel, instrument) pair. -/
def splitRawTrack (t : Track) : List Track :=
  let s1 := t.notes.foldl
    (fun s n =>
      let n2 := resolveNote t n
      pushNote s t.name n2.channel n2.instrument n2) []
  t.controlChanges.foldl
    (fun s kl =>
      kl.2.foldl
        (fun s c =>
          let c2 := resolveCC t c
          pushCC s t.name c2.channel c2.instrument kl.1 c2) s) s1

/-- Channel-major, instrument-minor order of the flattened sub-tracks
(`subTracks.forEach` over a JS array iterates numeric indices ascending). -/
def subTrackLE (a b : Track) : Prop :=
  a.channelNumber < b.channelNumber ∨
    (a.channelNumber = b.channelNumber ∧ a.instrumentNumber ≤ b.instrumentNumber)

instance : DecidableRel subTrackLE := fun a b => by
  unfold subTrackLE; infer_instance

/-- The flattened output of splitting one raw track (Midi.js lines 229-235):
JS array iteration skips negative indices, hence the filter; the surviving
sub-tracks come out channel-ascending then instrument-ascending. -/
def splitOutput (t : Track) : List Track :=
  List.insertionSort subTrackLE
    ((splitRawTrack t).filter fun e =>
      decide (0 ≤ e.channelNumber ∧ 0 ≤ e.instrumentNumber))

/-- Dense sequential track ids assigned across the whole file
(`track.id = trackId; trackId++`, Midi.js lines 230-234). -/
def assignIds : List Track → ℤ → List Track
  | [], _ => []
  | t :: ts, i => { t with id := i } :: assignIds ts (i + 1)

/-- The whole channel/instrument splitting stage over all raw tracks
(Midi.js lines 176-236). -/
def splitTracks (ts : List Track) : List Track :=
  assignIds (ts.foldl (fun acc t => acc ++ splitOutput t) []) 0

/-- Modelled from the spec: track start time (spec §3, `Track.js` not among
the sources) — the minimum note start of the track, 0 if it has none. -/
def trackStartTime (t : Track) : ℚ :=
  match t.notes.map Note.time with
  | [] => 0
  | x :: xs => xs.foldl min x

/-- Modelled from the spec: track end (spec §3) — the maximum note end of the
track, 0 if it has none. -/
def trackDuration (t : Track) : ℚ :=
  match t.notes.map (fun n => n.time + n.duration) with
  | [] => 0
  | x :: xs => xs.foldl max x

/-- `get startTime` (Midi.js lines 416-423): minimum track start, 0 when
there are no tracks. -/
def midiStartTime (m : Midi) : ℚ :=
  match m.tracks.map trackStartTime with
  | [] => 0
  | x :: xs => xs.foldl min x

/-- `get duration` (Midi.js lines 456-463): maximum track end, 0 when there
are no tracks. -/
def midiDuration (m : Midi) : ℚ :=
  match m.tracks.map trackDuration with
  | [] => 0
  | x :: xs => xs.foldl max x

/-- The record `toJSON` returns (Midi.js lines 302-316); per spec §6 the
track entries are a pure structural transcription, embedded here as the
tracks themselves. -/
structure MidiJson where
  header : Header
  startTime : ℚ
  duration : ℚ
  tracks : List Track
deriving DecidableEq

/-- `Midi.toJSON` (Midi.js lines 302-316).  `ret.header` is the very same
object as `this.header`, so the defaulting write `ret.header.name = ''`
(executed when the name is JS-falsy: absent or the empty string) goes through
to the Midi itself.  The embedding returns the record together with the Midi
as it stands after the call. -/
def toJSON (m : Midi) : MidiJson × Midi :=
  let header1 :=
    if m.header.name = none ∨ m.header.name = some "" then
      { m.header with name := some "" }
    else m.header
  ({ header := header1, startTime := midiStartTime m, duration := midiDuration m,
     tracks := m.tracks },
   { m with header := header1 })

/-- Modelled from the spec: `Track.scale(ratio)` lives in `Track.js`, which
is not among the sources.  Spec §4.6: rescales every note and control-change
time and every note duration by the ratio, uniformly. -/
def scaleTrack (ratio : ℚ) (t : Track) : Track :=
  { t with
    notes := t.notes.map fun n =>
      { n with time := n.time * ratio, duration := n.duration * ratio },
    controlChanges := t.controlChanges.map fun kl =>
      (kl.1, kl.2.map fun c => { c with time := c.time * ratio }) }

/-- `set bpm` (Midi.js lines 432-439): remember the previous tempo, store the
new one, and scale every track by `prevTempo / bpm`. -/
def setBpm (m : Midi) (bpm : ℚ) : Midi :=
  let prevTempo := m.header.bpm
  let ratio := prevTempo / bpm
  { m with
    header := { m.header with bpm := bpm },
    tracks := m.tracks.map (scaleTrack ratio) }

/-- What the XHR inside `load` delivers: either the `load` event with the
request's readyState, HTTP status and response bytes, or the `error` event
for a network failure. -/
inductive XhrEvent where
  | load (readyState status : ℕ) (response : List ℕ)
  | error (message : String)
deriving DecidableEq

/-- Outcome of a JS promise as seen by its caller: fulfilled (possibly with
`undefined`, i.e. `none`) or rejected with a reason — here either the HTTP
status passed to `fail(request.status)` or the error event. -/
inductive PromiseResult (α : Type) where
  | resolved (value : Option α)
  | rejected (reason : ℕ ⊕ String)
deriving DecidableEq

/-- The promise constructed inside `load` (Midi.js lines 51-64): on the
`load` event it resolves with `decode(response)` when
`readyState === 4 && status === 200`, rejects with the status otherwise, and
rejects on the `error` event.  `decode` is abstracted as a function
parameter. -/
def loadInner (decodeFn : List ℕ → Midi) (ev : XhrEvent) : PromiseResult Midi :=
  match ev with
  | .load readyState status response =>
    if readyState = 4 ∧ status = 200 then .resolved (some (decodeFn response))
    else .rejected (Sum.inl status)
  | .error msg => .rejected (Sum.inr msg)

/-- What `load` actually returns (Midi.js lines 50-68): the inner promise
with `.catch(function(error){ console.log(error); })` appended — a rejection
is logged and converted into fulfillment with `undefined`. -/
def load (decodeFn : List ℕ → Midi) (ev : XhrEvent) : PromiseResult Midi :=
  match loadInner decodeFn ev with
  | .rejected _ => .resolved none
  | other => other

/-- An XHR outcome that is a transport failure: the network `error` event, or
a `load` event failing the `readyState === 4 && status === 200` check. -/
def transportFails : XhrEvent → Bool
  | .load readyState status _ => !(readyState == 4 && status == 200)
  | .error _ => true

/-- The non-time payload of a note: every field except `time` and
`duration`. -/
def noteShape (n : Note) : ℕ × ℚ × ℤ × ℤ :=
  (n.pitch, n.velocity, n.channel, n.instrument)

/-- The non-time payload of a control change: every field except `time`. -/
def ccShape (c : ControlChange) : ℚ × ℤ × ℤ :=
  (c.value, c.channel, c.instrument)

/-- Everything about a track except the `time`/`duration` values of its
elements: id, name, channel, instrument, and the element sequences with their
non-time payloads (so also the element counts and order, and the controller
keys). -/
def trackShape (t : Track) :
    ℤ × Option String × ℤ × ℤ × List (ℕ × ℚ × ℤ × ℤ) × List (CCKey × List (ℚ × ℤ × ℤ)) :=
  (t.id, t.name, t.channelNumber, t.instrumentNumber,
   t.notes.map noteShape,
   t.controlChanges.map fun kl => (kl.1, kl.2.map ccShape))

/-- Total number of notes across a list of tracks. -/
def notesCount (l : List Track) : ℕ :=
  (l.map fun t => t.notes.length).sum

/-- The §3 data-model ranges a raw track coming out of the demuxer satisfies:
notes and control changes carry a real channel (0-15, in particular ≥ 0,
since every note-on/controller/pitch-bend token carries its channel) and an
instrument that is a program number or the `-1` sentinel; the track
instrument is likewise a program number or `-1`. -/
def TrackValid (t : Track) : Prop :=
  -1 ≤ t.instrumentNumber ∧
  (∀ n ∈ t.notes, 0 ≤ n.channel ∧ -1 ≤ n.instrument) ∧
  (∀ kl ∈ t.controlChanges, ∀ c ∈ kl.2, 0 ≤ c.channel ∧ -1 ≤ c.instrument)

instance (t : Track) : Decidable (TrackValid t) := by
  unfold TrackValid; infer_instance

/-- Which events assign `track.channelNumber` when it is still unset: any
event with a truthy (nonzero) channel, and any note-on (whose branch assigns
a zero channel too). -/
def assignsChannel (e : MEvent) : Option ℤ :=
  match e with
  | .noteOn c _ _ => some (c : ℤ)
  | _ =>
    match e.channelField with
    | some c => if c = 0 then none else some (c : ℤ)
    | none => none

/-- Header of the spec's §8 scenario: PPQ 480, reference tempo 120 BPM. -/
def scenarioHeader : Header := {}

/-- The §8 scenario's tempo-change list: one breakpoint produced by a
set-tempo event at tick 480 with `microsecondsPerBeat = 1000000`
(Midi.js lines 149-152: `newBpm = 60 / (μs / 1000000)`, time = nominal
seconds of tick 480). -/
def scenarioChanges : List Control :=
  [{ time := ticksToSeconds 480 scenarioHeader, value := 60 / (1000000 / 1000000) }]

/-- The §8 scenario's note: note-on at tick 960, note-off 480 ticks later,
so nominal time `ticksToSeconds 960` and nominal duration
`ticksToSeconds 1440 - ticksToSeconds 960`. -/
def scenarioNote : Note :=
  { pitch := 60,
    time := ticksToSeconds 960 scenarioHeader,
    duration := ticksToSeconds 1440 scenarioHeader - ticksToSeconds 960 scenarioHeader,
    velocity := 1, channel := 1, instrument := 0 }

/-- The §8 scenario Midi: a single (post-split) track holding the note. -/
def scenarioMidi : Midi :=
  { tracks := [{ notes := [scenarioNote] }] }

/-- The scenario's note after `applyTempoChanges(scenarioChanges, 120)`. -/
def scenarioWarpedNote : Note :=
  (((applyTempoChanges scenarioChanges 120 scenarioMidi).tracks.headD {}).notes.headD
    { pitch := 0, time := 0, duration := 0, velocity := 0, channel := 0, instrument := 0 })

/-- The tempo-change list is non-decreasing by time. -/
def timeSorted (l : List Control) : Prop :=
  l.Pairwise fun a b => a.time ≤ b.time

/-- A concrete note used in witnesses. -/
def sampleNote : Note :=
  { pitch := 60, time := 2, duration := 1, velocity := 1, channel := 0, instrument := 0 }

/-- A concrete one-note Midi at 120 BPM used in witnesses. -/
def sampleMidi : Midi :=
  { header := { bpm := 120 }, tracks := [{ notes := [sampleNote] }] }

/-- A concrete raw (pre-split) mixed track used in witnesses: channel 2, no
track instrument; one note inheriting the track channel, one note carrying
its own channel and instrument, and one control change inheriting both. -/
def sampleRawTrack : Track :=
  { channelNumber := 2, instrumentNumber := -1,
    notes := [{ pitch := 60, time := 0, duration := 1, velocity := 1,
                channel := 2, instrument := -1 },
              { pitch := 61, time := 1, duration := 1, velocity := 1,
                channel := 3, instrument := 5 }],
    controlChanges := [(CCKey.num 7,
      [{ time := 0, value := 1, channel := 2, instrument := -1 }])] }

/-! ## Generic list helpers -/

theorem list_map_congr {α β : Type} (f g : α → β) (h : ∀ a, f a = g a) :
    ∀ l : List α, l.map f = l.map g := by
  intro l
  induction l with
  | nil => rfl
  | cons x xs ih => simp [h, ih]

theorem list_map_self {α : Type} (f : α → α) (h : ∀ a, f a = a) :
    ∀ l : List α, l.map f = l := by
  intro l
  induction l with
  | nil => rfl
  | cons x xs ih => simp [h, ih]

/-! ## The tempo warp: frame and no-op properties -/

theorem applyTempoNotes_shape (bpm : ℚ) :
    ∀ (ns : List Note) (cur : Control) (rest : List Control) (nt : ℚ),
      (applyTempoNotes bpm cur rest nt ns).map noteShape = ns.map noteShape
  | [], _, _, _ => rfl
  | n :: ns, cur, rest, nt => by
    simp only [applyTempoNotes]
    split
    · simp [applyTempoNotes_shape bpm ns, noteShape]
    · simp [applyTempoNotes_shape bpm ns, noteShape]

theorem applyTempoCCs_shape (bpm : ℚ) :
    ∀ (cs : List ControlChange) (cur : Control) (rest : List Control) (nt : ℚ),
      (applyTempoCCs bpm cur rest nt cs).map ccShape = cs.map ccShape
  | [], _, _, _ => rfl
  | c :: cs, cur, rest, nt => by
    simp only [applyTempoCCs]
    split
    · simp [applyTempoCCs_shape bpm cs, ccShape]
    · simp [applyTempoCCs_shape bpm cs, ccShape]

/-- C9: if the tempo-breakpoint sequence passed to `applyTempoChanges` is
empty, the call is a no-op on the whole Midi — in particular every note's and
control change's time and every note's duration is unchanged
(Midi.js lines 363-365). -/
theorem C9_empty_noop (bpm : ℚ) (m : Midi) : applyTempoChanges [] bpm m = m := rfl

/-- C10: for every Midi, breakpoint list and reference bpm,
`applyTempoChanges` changes only the `time` and `duration` fields of notes
and control changes: the track count, each track's id, name, channel and
instrument, the number and order of its notes and control changes, the
controller keys, and every non-time element field (pitch, velocity, channel,
instrument, value) are unchanged. -/
theorem C10_warp_frame (m : Midi) (changes : List Control) (bpm : ℚ) :
    (applyTempoChanges changes bpm m).tracks.map trackShape = m.tracks.map trackShape := by
  cases changes with
  | nil => rfl
  | cons c0 cs =>
    simp only [applyTempoChanges, List.map_map]
    refine list_map_congr _ _ (fun t => ?_) m.tracks
    simp only [Function.comp, trackShape, applyTempoNotes_shape, List.map_map]
    refine congrArg (fun l => (t.id, t.name, t.channelNumber, t.instrumentNumber,
      t.notes.map noteShape, l)) ?_
    refine list_map_congr _ _ (fun kl => ?_) t.controlChanges
    simp [applyTempoCCs_shape]

/-- C1 (counterexample): in the §8 scenario — tempo change 120→60 BPM at
tick 480 (nominal 0.5 s), note-on at tick 960 (nominal 1.0 s) lasting 480
ticks (nominal 0.5 s) — the warped note does NOT have time 1.5 s and
duration 0.5 s as the claim states. -/
theorem C1_counterexample :
    ¬ (scenarioWarpedNote.time = 3 / 2 ∧ scenarioWarpedNote.duration = 1 / 2) := by
  norm_num [scenarioWarpedNote, scenarioMidi, scenarioChanges, scenarioNote, scenarioHeader,
    applyTempoChanges, applyTempoNotes, advanceLoop, ticksToSeconds]

/-- C1 (amended): in that scenario the code rewrites the note's time to
1.0 s and its duration to 1.0 s: `newTime` never accumulates the real time
of the segment before the first breakpoint, so
`time = (1.0 - 0.5) * 2 + 0 = 1.0`, and the nominal duration of 480 ticks at
120 BPM is 0.5 s, scaled by speed 2 to 1.0 s. -/
theorem C1_corrected :
    scenarioWarpedNote.time = 1 ∧ scenarioWarpedNote.duration = 1 := by
  norm_num [scenarioWarpedNote, scenarioMidi, scenarioChanges, scenarioNote, scenarioHeader,
    applyTempoChanges, applyTempoNotes, advanceLoop, ticksToSeconds]

/-! ## load: transport failures -/

/-- C2 (counterexample): on a non-200 HTTP status (404), the promise `load`
returns RESOLVES — with `undefined` — instead of failing: the trailing
`.catch(function(error){ console.log(error); })` (Midi.js lines 65-67)
swallows the rejection. -/
theorem C2_counterexample :
    load (fun _ => {}) (XhrEvent.load 4 404 []) = PromiseResult.resolved none := rfl

/-- C2 (amended): for every transport failure (network error or a `load`
event failing the `readyState === 4 && status === 200` check) the inner
promise does reject with a transport-specific reason, but `load`'s trailing
catch converts the rejection into fulfillment with `undefined`, so the
caller of `load` never observes the failure. -/
theorem C2_corrected (decodeFn : List ℕ → Midi) (ev : XhrEvent)
    (h : transportFails ev = true) :
    load decodeFn ev = PromiseResult.resolved none ∧
      ∃ r, loadInner decodeFn ev = PromiseResult.rejected r := by
  cases ev with
  | load rs st resp =>
    have hns : ¬(rs = 4 ∧ st = 200) := by
      simp [transportFails] at h
      omega
    exact ⟨by simp [load, loadInner, hns], ⟨Sum.inl st, by simp [loadInner, hns]⟩⟩
  | error msg =>
    exact ⟨rfl, ⟨Sum.inr msg, rfl⟩⟩

/-- Witness for C2 at a concrete failing request (status 500). -/
theorem C2_witness :
    transportFails (XhrEvent.load 4 500 []) = true ∧
      (load (fun _ => {}) (XhrEvent.load 4 500 []) = PromiseResult.resolved none ∧
        ∃ r, loadInner (fun _ => {}) (XhrEvent.load 4 500 []) = PromiseResult.rejected r) :=
  ⟨by decide, C2_corrected (fun _ => ({} : Midi)) (XhrEvent.load 4 500 []) (by decide)⟩

/-! ## toJSON mutates the Midi it serializes -/

/-- C3: evaluating `toJSON` at a Midi whose header name is unset shows the
claimed frame property failing on the code: `ret.header` aliases
`this.header`, so the defaulting write `ret.header.name = ''` mutates the
Midi itself — afterwards its header name is `''`, not unset, and the Midi is
no longer equal to its pre-call value. -/
theorem C3_code_bug :
    (toJSON {}).2.header.name = some "" ∧ ({} : Midi).header.name = none ∧
      (toJSON {}).2 ≠ ({} : Midi) := by decide

/-! ## Lazy channelNumber assignment during demuxing -/

theorem stepChannelNumber_ne (cn : ℤ) (e : MEvent) (h : cn ≠ -1) :
    stepChannelNumber cn e = cn := by
  cases e <;> simp [stepChannelNumber, MEvent.channelField, h]

theorem foldl_stepChannelNumber_ne (evs : List MEvent) :
    ∀ cn : ℤ, cn ≠ -1 → evs.foldl stepChannelNumber cn = cn := by
  induction evs with
  | nil => intro cn _; rfl
  | cons e evs ih =>
    intro cn h
    rw [List.foldl_cons, stepChannelNumber_ne cn e h]
    exact ih cn h

theorem stepChannelNumber_assign (e : MEvent) (c : ℤ) (h : assignsChannel e = some c) :
    stepChannelNumber (-1) e = c ∧ c ≠ -1 := by
  cases e with
  | noteOn ch p v =>
    simp only [assignsChannel, Option.some.injEq] at h
    subst h
    by_cases hch : ch = 0
    · subst hch
      exact ⟨by simp [stepChannelNumber, MEvent.channelField], by decide⟩
    · refine ⟨?_, by omega⟩
      have : (ch : ℤ) ≠ -1 := by omega
      simp [stepChannelNumber, MEvent.channelField, hch, this]
  | noteOff ch p =>
    simp only [assignsChannel, MEvent.channelField] at h
    by_cases hch : ch = 0
    · simp [hch] at h
    · simp only [hch, if_false, Option.some.injEq] at h
      subst h
      exact ⟨by simp [stepChannelNumber, MEvent.channelField, hch], by omega⟩
  | controller ch t v =>
    simp only [assignsChannel, MEvent.channelField] at h
    by_cases hch : ch = 0
    · simp [hch] at h
    · simp only [hch, if_false, Option.some.injEq] at h
      subst h
      exact ⟨by simp [stepChannelNumber, MEvent.channelField, hch], by omega⟩
  | programChange ch p =>
    simp only [assignsChannel, MEvent.channelField] at h
    by_cases hch : ch = 0
    · simp [hch] at h
    · simp only [hch, if_false, Option.some.injEq] at h
      subst h
      exact ⟨by simp [stepChannelNumber, MEvent.channelField, hch], by omega⟩
  | pitchBend ch v =>
    simp only [assignsChannel, MEvent.channelField] at h
    by_cases hch : ch = 0
    · simp [hch] at h
    · simp only [hch, if_false, Option.some.injEq] at h
      subst h
      exact ⟨by simp [stepChannelNumber, MEvent.channelField, hch], by omega⟩
  | trackName s => simp [assignsChannel, MEvent.channelField] at h
  | instrumentName s => simp [assignsChannel, MEvent.channelField] at h
  | setTempo q => simp [assignsChannel, MEvent.channelField] at h

theorem stepChannelNumber_skip (e : MEvent) (h : assignsChannel e = none) :
    stepChannelNumber (-1) e = -1 := by
  cases e with
  | noteOn ch p v => simp [assignsChannel] at h
  | noteOff ch p =>
    simp only [assignsChannel, MEvent.channelField, ite_eq_left_iff] at h
    by_cases hch : ch = 0
    · simp [stepChannelNumber, MEvent.channelField, hch]
    · exact absurd (h hch) (by simp)
  | controller ch t v =>
    simp only [assignsChannel, MEvent.channelField, ite_eq_left_iff] at h
    by_cases hch : ch = 0
    · simp [stepChannelNumber, MEvent.channelField, hch]
    · exact absurd (h hch) (by simp)
  | programChange ch p =>
    simp only [assignsChannel, MEvent.channelField, ite_eq_left_iff] at h
    by_cases hch : ch = 0
    · simp [stepChannelNumber, MEvent.channelField, hch]
    · exact absurd (h hch) (by simp)
  | pitchBend ch v =>
    simp only [assignsChannel, MEvent.channelField, ite_eq_left_iff] at h
    by_cases hch : ch = 0
    · simp [stepChannelNumber, MEvent.channelField, hch]
    · exact absurd (h hch) (by simp)
  | trackName s => simp [stepChannelNumber, MEvent.channelField]
  | instrumentName s => simp [stepChannelNumber, MEvent.channelField]
  | setTempo q => simp [stepChannelNumber, MEvent.channelField]

/-- C4 (counterexample): a raw track whose first (and only) event carries
channel 0 but is not a note-on — a controller event on channel 0 — leaves
`channelNumber` at `-1`: JS truthiness (`event.channel &&` at Midi.js line
107) skips channel 0, so the claim's "for every channel value 0 through 15"
fails. -/
theorem C4_counterexample :
    demuxChannelNumber [MEvent.controller 0 7 1] = -1 ∧
      (MEvent.controller 0 7 1).channelField = some 0 := by decide

/-- C4 (amended): during demuxing, `channelNumber` is set from the first
event carrying a nonzero channel or from the first note-on (any channel,
including 0), whichever comes first — events on channel 0 other than
note-ons never assign it — and once set it is never overwritten by later
events. -/
theorem C4_corrected (evs : List MEvent) (cn : ℤ) (h : cn ≠ -1) :
    demuxChannelNumber evs = (evs.findSome? assignsChannel).getD (-1) ∧
      evs.foldl stepChannelNumber cn = cn := by
  refine ⟨?_, foldl_stepChannelNumber_ne evs cn h⟩
  unfold demuxChannelNumber
  induction evs with
  | nil => rfl
  | cons e evs ih =>
    cases hc : assignsChannel e with
    | none =>
      rw [List.foldl_cons, stepChannelNumber_skip e hc, List.findSome?_cons, hc]
      exact ih
    | some c =>
      obtain ⟨hstep, hne⟩ := stepChannelNumber_assign e c hc
      rw [List.foldl_cons, hstep, List.findSome?_cons, hc,
        foldl_stepChannelNumber_ne evs c hne]
      rfl

/-- Witness for C4 at a concrete track (a note-on on channel 0 assigns it)
and a concrete already-set channel (3) that stays. -/
theorem C4_witness :
    (3 : ℤ) ≠ -1 ∧
      (demuxChannelNumber [MEvent.noteOn 0 60 1] =
          (([MEvent.noteOn 0 60 1].findSome? assignsChannel).getD (-1)) ∧
        [MEvent.noteOn 0 60 1].foldl stepChannelNumber 3 = 3) :=
  ⟨by decide, C4_corrected [MEvent.noteOn 0 60 1] 3 (by decide)⟩

/-! ## Bpm rescale round trip -/

theorem scaleTrack_scaleTrack (r1 r2 : ℚ) (t : Track) :
    scaleTrack r2 (scaleTrack r1 t) = scaleTrack (r1 * r2) t := by
  cases t with
  | mk id name cn inst notes ccs =>
    simp only [scaleTrack, List.map_map, Track.mk.injEq, true_and]
    constructor
    · exact list_map_congr _ _ (fun n => by simp [Function.comp, mul_assoc]) notes
    · exact list_map_congr _ _
        (fun kl => by simp [Function.comp, List.map_map, mul_assoc]) ccs

theorem scaleTrack_one (t : Track) : scaleTrack 1 t = t := by
  cases t with
  | mk id name cn inst notes ccs =>
    simp only [scaleTrack, Track.mk.injEq, true_and]
    constructor
    · exact list_map_self _ (fun n => by rw [mul_one, mul_one]) notes
    · refine list_map_self _ (fun kl => ?_) ccs
      rw [list_map_self _ (fun c => by rw [mul_one]) kl.2]

/-- C5: setting the Midi's bpm from `b1` to `b2` and back to `b1` restores
the Midi exactly (in exact rational arithmetic; hence in particular every
note's time and duration and every control change's time), for every Midi
whose current bpm is `b1` and all positive `b1`, `b2`. -/
theorem C5_bpm_roundtrip (m : Midi) (b1 b2 : ℚ) (hb : m.header.bpm = b1)
    (h1 : 0 < b1) (h2 : 0 < b2) :
    setBpm (setBpm m b2) b1 = m := by
  cases m with
  | mk header tracks =>
    cases header with
    | mk nm bpm ts ppq =>
      simp only [Header.bpm] at hb
      subst hb
      have key : bpm / b2 * (b2 / bpm) = 1 := by
        field_simp
      have comp : ∀ t : Track, (scaleTrack (b2 / bpm) ∘ scaleTrack (bpm / b2)) t = t := by
        intro t
        simp only [Function.comp_apply]
        rw [scaleTrack_scaleTrack, key, scaleTrack_one]
      simp only [setBpm, Header.bpm, List.map_map]
      rw [list_map_self _ comp tracks]

/-- Witness for C5: a concrete one-note Midi at 120 BPM, rescaled to 60 and
back. -/
theorem C5_witness :
    sampleMidi.header.bpm = 120 ∧ (0 : ℚ) < 120 ∧ (0 : ℚ) < 60 ∧
      setBpm (setBpm sampleMidi 60) 120 = sampleMidi :=
  ⟨rfl, by norm_num, by norm_num,
    C5_bpm_roundtrip sampleMidi 120 60 rfl (by norm_num) (by norm_num)⟩

/-! ## Tempo-curve builder: sortedness and stability -/

theorem mem_BinaryInsert {a c : Control} :
    ∀ {l : List Control}, a ∈ BinaryInsert l c ↔ a = c ∨ a ∈ l := by
  intro l
  induction l with
  | nil => simp [BinaryInsert]
  | cons x xs ih =>
    simp only [BinaryInsert]
    split
    · simp only [List.mem_cons, ih]
      tauto
    · simp only [List.mem_cons]

theorem BinaryInsert_sorted {l : List Control} (c : Control) (h : timeSorted l) :
    timeSorted (BinaryInsert l c) := by
  induction l with
  | nil => simp [BinaryInsert, timeSorted]
  | cons x xs ih =>
    rw [timeSorted, List.pairwise_cons] at h
    obtain ⟨hx, hs⟩ := h
    simp only [BinaryInsert]
    split
    · rename_i hxc
      rw [timeSorted, List.pairwise_cons]
      refine ⟨fun y hy => ?_, ih hs⟩
      rcases mem_BinaryInsert.mp hy with rfl | hy
      · exact hxc
      · exact hx y hy
    · rename_i hxc
      push_neg at hxc
      rw [timeSorted, List.pairwise_cons]
      refine ⟨fun y hy => ?_, List.pairwise_cons.mpr ⟨hx, hs⟩⟩
      rcases List.mem_cons.mp hy with rfl | hy
      · exact le_of_lt hxc
      · exact le_trans (le_of_lt hxc) (hx y hy)

theorem BinaryInsert_filter (c : Control) (t : ℚ) :
    ∀ l : List Control, timeSorted l →
      (BinaryInsert l c).filter (fun a => decide (a.time = t)) =
        l.filter (fun a => decide (a.time = t)) ++ (if c.time = t then [c] else []) := by
  intro l
  induction l with
  | nil =>
    intro _
    by_cases hct : c.time = t <;> simp [BinaryInsert, List.filter_cons, hct]
  | cons x xs ih =>
    intro h
    rw [timeSorted, List.pairwise_cons] at h
    obtain ⟨hx, hs⟩ := h
    simp only [BinaryInsert]
    split
    · rename_i hxc
      rw [List.filter_cons, List.filter_cons, ih hs]
      by_cases px : x.time = t
      · simp [px]
      · simp [px]
    · rename_i hxc
      push_neg at hxc
      rw [List.filter_cons]
      by_cases hct : c.time = t
      · have hnil : (x :: xs).filter (fun a => decide (a.time = t)) = [] := by
          rw [List.filter_eq_nil_iff]
          intro y hy
          have hyt : t < y.time := by
            rcases List.mem_cons.mp hy with rfl | hy
            · exact hct ▸ hxc
            · exact lt_of_lt_of_le (hct ▸ hxc) (hx y hy)
          simp [ne_of_gt hyt]
        simp [hct, hnil]
      · simp [hct]

theorem tempoFold_invariant :
    ∀ cs acc : List Control, timeSorted acc →
      timeSorted (cs.foldl BinaryInsert acc) ∧
        ∀ t : ℚ, (cs.foldl BinaryInsert acc).filter (fun a => decide (a.time = t)) =
          acc.filter (fun a => decide (a.time = t)) ++
            cs.filter (fun a => decide (a.time = t)) := by
  intro cs
  induction cs with
  | nil =>
    intro acc h
    exact ⟨h, fun t => by simp⟩
  | cons c cs ih =>
    intro acc h
    rw [List.foldl_cons]
    obtain ⟨s1, s2⟩ := ih (BinaryInsert acc c) (BinaryInsert_sorted c h)
    refine ⟨s1, fun t => ?_⟩
    rw [s2 t, BinaryInsert_filter c t acc h, List.filter_cons]
    by_cases hct : c.time = t
    · simp [hct]
    · simp [hct]

/-- C7: after any number of `BinaryInsert` insertions into the initially
empty tempo-change list, in any discovery order, the resulting sequence is
non-decreasing by time; and for every timestamp the subsequence of entries
with that exact time equals the insertions with that time in insertion
order — i.e. equal-time insertions land after existing equal-time
entries. -/
theorem C7_tempo_sorted (cs : List Control) :
    timeSorted (tempoFold cs) ∧
      ∀ t : ℚ, (tempoFold cs).filter (fun a => decide (a.time = t)) =
        cs.filter (fun a => decide (a.time = t)) := by
  obtain ⟨s1, s2⟩ := tempoFold_invariant cs [] (by simp [timeSorted])
  exact ⟨s1, fun t => by simpa using s2 t⟩

/-! ## Splitter: note-count preservation -/

theorem notesCount_nil : notesCount [] = 0 := rfl

theorem notesCount_cons (e : Track) (l : List Track) :
    notesCount (e :: l) = e.notes.length + notesCount l := by
  simp [notesCount]

theorem pushNote_notesCount (nm : Option String) (ch inst : ℤ) (n : Note) :
    ∀ s : List Track, notesCount (pushNote s nm ch inst n) = notesCount s + 1 := by
  intro s
  induction s with
  | nil => simp [pushNote, notesCount]
  | cons e rest ih =>
    simp only [pushNote]
    split
    · simp only [notesCount_cons, List.length_append, List.length_cons, List.length_nil]
      omega
    · simp only [notesCount_cons, ih]
      omega

theorem pushCC_notesCount (nm : Option String) (ch inst : ℤ) (k : CCKey) (c : ControlChange) :
    ∀ s : List Track, notesCount (pushCC s nm ch inst k c) = notesCount s := by
  intro s
  induction s with
  | nil => simp [pushCC, notesCount]
  | cons e rest ih =>
    simp only [pushCC]
    split
    · simp only [notesCount_cons]
    · simp only [notesCount_cons, ih]

theorem foldl_pushNote_notesCount (t : Track) :
    ∀ (ns : List Note) (s : List Track),
      notesCount (ns.foldl (fun s n =>
        let n2 := resolveNote t n
        pushNote s t.name n2.channel n2.instrument n2) s) = notesCount s + ns.length := by
  intro ns
  induction ns with
  | nil => intro s; simp
  | cons n ns ih =>
    intro s
    rw [List.foldl_cons, ih]
    simp only [pushNote_notesCount, List.length_cons]
    omega

theorem ccfold_inner_notesCount (t : Track) (k : CCKey) :
    ∀ (cs : List ControlChange) (s : List Track),
      notesCount (cs.foldl (fun s c =>
        let c2 := resolveCC t c
        pushCC s t.name c2.channel c2.instrument k c2) s) = notesCount s := by
  intro cs
  induction cs with
  | nil => intro s; rfl
  | cons c cs ih =>
    intro s
    rw [List.foldl_cons, ih]
    simp only [pushCC_notesCount]

theorem ccfold_notesCount (t : Track) :
    ∀ (kls : List (CCKey × List ControlChange)) (s : List Track),
      notesCount (kls.foldl (fun s kl =>
        kl.2.foldl (fun s c =>
          let c2 := resolveCC t c
          pushCC s t.name c2.channel c2.instrument kl.1 c2) s) s) = notesCount s := by
  intro kls
  induction kls with
  | nil => intro s; rfl
  | cons kl kls ih =>
    intro s
    rw [List.foldl_cons, ih, ccfold_inner_notesCount]

theorem splitRawTrack_notesCount (t : Track) :
    notesCount (splitRawTrack t) = t.notes.length := by
  unfold splitRawTrack
  simp only [ccfold_notesCount, foldl_pushNote_notesCount, notesCount_nil]
  omega

theorem resolveChannel_nonneg {tc c : ℤ} (h : 0 ≤ c) : 0 ≤ resolveChannel tc c := by
  unfold resolveChannel
  split <;> omega

theorem resolveInstrument_nonneg {ti i : ℤ} (hi : -1 ≤ i) (hti : -1 ≤ ti) :
    0 ≤ resolveInstrument ti i := by
  unfold resolveInstrument
  split
  · split <;> omega
  · omega

theorem pushNote_nonneg {s : List Track} {nm : Option String} {ch inst : ℤ} {n : Note}
    (hs : ∀ e ∈ s, 0 ≤ e.channelNumber ∧ 0 ≤ e.instrumentNumber)
    (hch : 0 ≤ ch) (hinst : 0 ≤ inst) :
    ∀ e ∈ pushNote s nm ch inst n, 0 ≤ e.channelNumber ∧ 0 ≤ e.instrumentNumber := by
  induction s with
  | nil =>
    intro e he
    simp only [pushNote, List.mem_singleton] at he
    subst he
    exact ⟨hch, hinst⟩
  | cons x xs ih =>
    intro e he
    simp only [pushNote] at he
    split at he
    · rcases List.mem_cons.mp he with rfl | he
      · exact hs x (List.mem_cons_self _ _)
      · exact hs e (List.mem_cons_of_mem _ he)
    · rcases List.mem_cons.mp he with rfl | he
      · exact hs e (List.mem_cons_self _ _)
      · exact ih (fun e he => hs e (List.mem_cons_of_mem _ he)) e he

theorem pushCC_nonneg {s : List Track} {nm : Option String} {ch inst : ℤ} {k : CCKey}
    {c : ControlChange}
    (hs : ∀ e ∈ s, 0 ≤ e.channelNumber ∧ 0 ≤ e.instrumentNumber)
    (hch : 0 ≤ ch) (hinst : 0 ≤ inst) :
    ∀ e ∈ pushCC s nm ch inst k c, 0 ≤ e.channelNumber ∧ 0 ≤ e.instrumentNumber := by
  induction s with
  | nil =>
    intro e he
    simp only [pushCC, List.mem_singleton] at he
    subst he
    exact ⟨hch, hinst⟩
  | cons x xs ih =>
    intro e he
    simp only [pushCC] at he
    split at he
    · rcases List.mem_cons.mp he with rfl | he
      · exact hs x (List.mem_cons_self _ _)
      · exact hs e (List.mem_cons_of_mem _ he)
    · rcases List.mem_cons.mp he with rfl | he
      · exact hs e (List.mem_cons_self _ _)
      · exact ih (fun e he => hs e (List.mem_cons_of_mem _ he)) e he

theorem foldl_pushNote_nonneg (t : Track) (hti : -1 ≤ t.instrumentNumber) :
    ∀ (ns : List Note), (∀ n ∈ ns, 0 ≤ n.channel ∧ -1 ≤ n.instrument) →
      ∀ s : List Track, (∀ e ∈ s, 0 ≤ e.channelNumber ∧ 0 ≤ e.instrumentNumber) →
        ∀ e ∈ ns.foldl (fun s n =>
            let n2 := resolveNote t n
            pushNote s t.name n2.channel n2.instrument n2) s,
          0 ≤ e.channelNumber ∧ 0 ≤ e.instrumentNumber := by
  intro ns
  induction ns with
  | nil => intro _ s hs e he; exact hs e he
  | cons n ns ih =>
    intro hns s hs
    rw [List.foldl_cons]
    refine ih (fun x hx => hns x (List.mem_cons_of_mem _ hx)) _ ?_
    exact pushNote_nonneg hs
      (resolveChannel_nonneg (hns n (List.mem_cons_self _ _)).1)
      (resolveInstrument_nonneg (hns n (List.mem_cons_self _ _)).2 hti)

theorem ccfold_inner_nonneg (t : Track) (hti : -1 ≤ t.instrumentNumber) (k : CCKey) :
    ∀ (cs : List ControlChange), (∀ c ∈ cs, 0 ≤ c.channel ∧ -1 ≤ c.instrument) →
      ∀ s : List Track, (∀ e ∈ s, 0 ≤ e.channelNumber ∧ 0 ≤ e.instrumentNumber) →
        ∀ e ∈ cs.foldl (fun s c =>
            let c2 := resolveCC t c
            pushCC s t.name c2.channel c2.instrument k c2) s,
          0 ≤ e.channelNumber ∧ 0 ≤ e.instrumentNumber := by
  intro cs
  induction cs with
  | nil => intro _ s hs e he; exact hs e he
  | cons c cs ih =>
    intro hcs s hs
    rw [List.foldl_cons]
    refine ih (fun x hx => hcs x (List.mem_cons_of_mem _ hx)) _ ?_
    exact pushCC_nonneg hs
      (resolveChannel_nonneg (hcs c (List.mem_cons_self _ _)).1)
      (resolveInstrument_nonneg (hcs c (List.mem_cons_self _ _)).2 hti)

theorem ccfold_nonneg (t : Track) (hti : -1 ≤ t.instrumentNumber) :
    ∀ (kls : List (CCKey × List ControlChange)),
      (∀ kl ∈ kls, ∀ c ∈ kl.2, 0 ≤ c.channel ∧ -1 ≤ c.instrument) →
      ∀ s : List Track, (∀ e ∈ s, 0 ≤ e.channelNumber ∧ 0 ≤ e.instrumentNumber) →
        ∀ e ∈ kls.foldl (fun s kl =>
            kl.2.foldl (fun s c =>
              let c2 := resolveCC t c
              pushCC s t.name c2.channel c2.instrument kl.1 c2) s) s,
          0 ≤ e.channelNumber ∧ 0 ≤ e.instrumentNumber := by
  intro kls
  induction kls with
  | nil => intro _ s hs e he; exact hs e he
  | cons kl kls ih =>
    intro hkls s hs
    rw [List.foldl_cons]
    refine ih (fun x hx => hkls x (List.mem_cons_of_mem _ hx)) _ ?_
    exact ccfold_inner_nonneg t hti kl.1 kl.2 (hkls kl (List.mem_cons_self _ _)) s hs

theorem splitRawTrack_nonneg (t : Track) (hv : TrackValid t) :
    ∀ e ∈ splitRawTrack t, 0 ≤ e.channelNumber ∧ 0 ≤ e.instrumentNumber := by
  obtain ⟨hti, hns, hcc⟩ := hv
  unfold splitRawTrack
  exact ccfold_nonneg t hti t.controlChanges hcc _
    (foldl_pushNote_nonneg t hti t.notes hns [] (by simp))

theorem splitOutput_filter_eq (t : Track) (hv : TrackValid t) :
    (splitRawTrack t).filter
        (fun e => decide (0 ≤ e.channelNumber ∧ 0 ≤ e.instrumentNumber)) =
      splitRawTrack t := by
  rw [List.filter_eq_self]
  intro e he
  exact decide_eq_true (splitRawTrack_nonneg t hv e he)

theorem splitOutput_notesCount (t : Track) (hv : TrackValid t) :
    notesCount (splitOutput t) = t.notes.length := by
  unfold splitOutput
  rw [splitOutput_filter_eq t hv]
  have hperm := List.perm_insertionSort subTrackLE (splitRawTrack t)
  have hsum := (hperm.map fun tr => tr.notes.length).sum_eq
  unfold notesCount
  rw [hsum]
  exact splitRawTrack_notesCount t

theorem notesCount_append (a b : List Track) :
    notesCount (a ++ b) = notesCount a + notesCount b := by
  simp [notesCount]

theorem assignIds_notesCount : ∀ (l : List Track) (i : ℤ),
    notesCount (assignIds l i) = notesCount l := by
  intro l
  induction l with
  | nil => intro i; rfl
  | cons t ts ih =>
    intro i
    simp only [assignIds, notesCount_cons, ih]

theorem splitTracks_fold_count :
    ∀ ts : List Track, (∀ t ∈ ts, TrackValid t) →
      ∀ acc : List Track,
        notesCount (ts.foldl (fun acc t => acc ++ splitOutput t) acc) =
          notesCount acc + (ts.map fun t => t.notes.length).sum := by
  intro ts
  induction ts with
  | nil => intro _ acc; simp
  | cons t ts ih =>
    intro hv acc
    rw [List.foldl_cons, ih (fun x hx => hv x (List.mem_cons_of_mem _ hx)),
      notesCount_append, splitOutput_notesCount t (hv t (List.mem_cons_self _ _))]
    simp only [List.map_cons, List.sum_cons]
    omega

/-- C6: for every collection of raw tracks satisfying the §3 data-model
ranges (note/control-change channels in 0-15, instruments a program number
or the `-1` sentinel), the channel/instrument splitting step preserves
notes exactly: the total note count across all output tracks equals the
total note count across all input raw tracks. -/
theorem C6_splitter_counts (ts : List Track) (hv : ∀ t ∈ ts, TrackValid t) :
    notesCount (splitTracks ts) = (ts.map fun t => t.notes.length).sum := by
  unfold splitTracks
  rw [assignIds_notesCount, splitTracks_fold_count ts hv [], notesCount_nil, Nat.zero_add]

/-! ## Splitter: placement by (channel, instrument) key -/

theorem pushNote_mem_new (nm : Option String) (ch inst : ℤ) (n : Note) :
    ∀ s : List Track, ∃ e ∈ pushNote s nm ch inst n,
      e.channelNumber = ch ∧ e.instrumentNumber = inst ∧ n ∈ e.notes := by
  intro s
  induction s with
  | nil => exact ⟨_, List.mem_singleton_self _, rfl, rfl, List.mem_singleton_self _⟩
  | cons x xs ih =>
    simp only [pushNote]
    split
    · rename_i hmatch
      exact ⟨_, List.mem_cons_self _ _, hmatch.1, hmatch.2, by simp⟩
    · obtain ⟨e, he, h1, h2, h3⟩ := ih
      exact ⟨e, List.mem_cons_of_mem _ he, h1, h2, h3⟩

theorem pushNote_mem_mono {s : List Track} {k1 k2 : ℤ} {x : Note}
    (h : ∃ e ∈ s, e.channelNumber = k1 ∧ e.instrumentNumber = k2 ∧ x ∈ e.notes)
    (nm : Option String) (ch inst : ℤ) (n : Note) :
    ∃ e ∈ pushNote s nm ch inst n,
      e.channelNumber = k1 ∧ e.instrumentNumber = k2 ∧ x ∈ e.notes := by
  induction s with
  | nil =>
    obtain ⟨e, he, _⟩ := h
    simp at he
  | cons y ys ih =>
    obtain ⟨e, he, h1, h2, h3⟩ := h
    simp only [pushNote]
    split
    · rcases List.mem_cons.mp he with rfl | he
      · exact ⟨_, List.mem_cons_self _ _, h1, h2, List.mem_append_left _ h3⟩
      · exact ⟨e, List.mem_cons_of_mem _ he, h1, h2, h3⟩
    · rcases List.mem_cons.mp he with rfl | he
      · exact ⟨e, List.mem_cons_self _ _, h1, h2, h3⟩
      · obtain ⟨e2, he2, g1, g2, g3⟩ := ih ⟨e, he, h1, h2, h3⟩
        exact ⟨e2, List.mem_cons_of_mem _ he2, g1, g2, g3⟩

theorem pushCC_mem_notes_mono {s : List Track} {k1 k2 : ℤ} {x : Note}
    (h : ∃ e ∈ s, e.channelNumber = k1 ∧ e.instrumentNumber = k2 ∧ x ∈ e.notes)
    (nm : Option String) (ch inst : ℤ) (k : CCKey) (c : ControlChange) :
    ∃ e ∈ pushCC s nm ch inst k c,
      e.channelNumber = k1 ∧ e.instrumentNumber = k2 ∧ x ∈ e.notes := by
  induction s with
  | nil =>
    obtain ⟨e, he, _⟩ := h
    simp at he
  | cons y ys ih =>
    obtain ⟨e, he, h1, h2, h3⟩ := h
    simp only [pushCC]
    split
    · rcases List.mem_cons.mp he with rfl | he
      · exact ⟨_, List.mem_cons_self _ _, h1, h2, h3⟩
      · exact ⟨e, List.mem_cons_of_mem _ he, h1, h2, h3⟩
    · rcases List.mem_cons.mp he with rfl | he
      · exact ⟨e, List.mem_cons_self _ _, h1, h2, h3⟩
      · obtain ⟨e2, he2, g1, g2, g3⟩ := ih ⟨e, he, h1, h2, h3⟩
        exact ⟨e2, List.mem_cons_of_mem _ he2, g1, g2, g3⟩

theorem ccListPush_mem_new (k : CCKey) (c : ControlChange) :
    ∀ m : List (CCKey × List ControlChange),
      ∃ l2, (k, l2) ∈ ccListPush m k c ∧ c ∈ l2 := by
  intro m
  induction m with
  | nil => exact ⟨[c], List.mem_singleton_self _, List.mem_singleton_self _⟩
  | cons p rest ih =>
    obtain ⟨k1, l1⟩ := p
    simp only [ccListPush]
    split
    · rename_i hk
      subst hk
      exact ⟨l1 ++ [c], List.mem_cons_self _ _, by simp⟩
    · obtain ⟨l2, h1, h2⟩ := ih
      exact ⟨l2, List.mem_cons_of_mem _ h1, h2⟩

theorem ccListPush_mem_mono {m : List (CCKey × List ControlChange)} {kk : CCKey}
    {lp : List ControlChange} {x : ControlChange}
    (h1 : (kk, lp) ∈ m) (h2 : x ∈ lp) (k : CCKey) (c : ControlChange) :
    ∃ l2, (kk, l2) ∈ ccListPush m k c ∧ x ∈ l2 := by
  induction m with
  | nil => simp at h1
  | cons p rest ih =>
    obtain ⟨k1, l1⟩ := p
    simp only [ccListPush]
    split
    · rcases List.mem_cons.mp h1 with heq | h1
      · cases heq
        exact ⟨lp ++ [c], List.mem_cons_self _ _, List.mem_append_left _ h2⟩
      · exact ⟨lp, List.mem_cons_of_mem _ h1, h2⟩
    · rcases List.mem_cons.mp h1 with heq | h1
      · exact ⟨lp, heq ▸ List.mem_cons_self _ _, h2⟩
      · obtain ⟨l2, hl2, hx⟩ := ih h1
        exact ⟨l2, List.mem_cons_of_mem _ hl2, hx⟩

theorem pushCC_mem_new (nm : Option String) (ch inst : ℤ) (k : CCKey) (c : ControlChange) :
    ∀ s : List Track, ∃ e ∈ pushCC s nm ch inst k c,
      e.channelNumber = ch ∧ e.instrumentNumber = inst ∧
        ∃ l, (k, l) ∈ e.controlChanges ∧ c ∈ l := by
  intro s
  induction s with
  | nil =>
    exact ⟨_, List.mem_singleton_self _, rfl, rfl,
      ⟨[c], List.mem_singleton_self _, List.mem_singleton_self _⟩⟩
  | cons x xs ih =>
    simp only [pushCC]
    split
    · rename_i hmatch
      obtain ⟨l2, hl2, hc⟩ := ccListPush_mem_new k c x.controlChanges
      exact ⟨_, List.mem_cons_self _ _, hmatch.1, hmatch.2, ⟨l2, hl2, hc⟩⟩
    · obtain ⟨e, he, h1, h2, h3⟩ := ih
      exact ⟨e, List.mem_cons_of_mem _ he, h1, h2, h3⟩

theorem pushCC_mem_cc_mono {s : List Track} {k1 k2 : ℤ} {kk : CCKey} {x : ControlChange}
    (h : ∃ e ∈ s, e.channelNumber = k1 ∧ e.instrumentNumber = k2 ∧
        ∃ l, (kk, l) ∈ e.controlChanges ∧ x ∈ l)
    (nm : Option String) (ch inst : ℤ) (k : CCKey) (c : ControlChange) :
    ∃ e ∈ pushCC s nm ch inst k c,
      e.channelNumber = k1 ∧ e.instrumentNumber = k2 ∧
        ∃ l, (kk, l) ∈ e.controlChanges ∧ x ∈ l := by
  induction s with
  | nil =>
    obtain ⟨e, he, _⟩ := h
    simp at he
  | cons y ys ih =>
    obtain ⟨e, he, h1, h2, l0, hl0, hx0⟩ := h
    simp only [pushCC]
    split
    · rcases List.mem_cons.mp he with rfl | he
      · obtain ⟨l2, hl2, hx2⟩ := ccListPush_mem_mono hl0 hx0 k c
        exact ⟨_, List.mem_cons_self _ _, h1, h2, ⟨l2, hl2, hx2⟩⟩
      · exact ⟨e, List.mem_cons_of_mem _ he, h1, h2, l0, hl0, hx0⟩
    · rcases List.mem_cons.mp he with rfl | he
      · exact ⟨e, List.mem_cons_self _ _, h1, h2, l0, hl0, hx0⟩
      · obtain ⟨e2, he2, g1, g2, g3⟩ := ih ⟨e, he, h1, h2, l0, hl0, hx0⟩
        exact ⟨e2, List.mem_cons_of_mem _ he2, g1, g2, g3⟩

theorem pushNote_mem_cc_mono {s : List Track} {k1 k2 : ℤ} {kk : CCKey} {x : ControlChange}
    (h : ∃ e ∈ s, e.channelNumber = k1 ∧ e.instrumentNumber = k2 ∧
        ∃ l, (kk, l) ∈ e.controlChanges ∧ x ∈ l)
    (nm : Option String) (ch inst : ℤ) (n : Note) :
    ∃ e ∈ pushNote s nm ch inst n,
      e.channelNumber = k1 ∧ e.instrumentNumber = k2 ∧
        ∃ l, (kk, l) ∈ e.controlChanges ∧ x ∈ l := by
  induction s with
  | nil =>
    obtain ⟨e, he, _⟩ := h
    simp at he
  | cons y ys ih =>
    obtain ⟨e, he, h1, h2, l0, hl0, hx0⟩ := h
    simp only [pushNote]
    split
    · rcases List.mem_cons.mp he with rfl | he
      · exact ⟨_, List.mem_cons_self _ _, h1, h2, l0, hl0, hx0⟩
      · exact ⟨e, List.mem_cons_of_mem _ he, h1, h2, l0, hl0, hx0⟩
    · rcases List.mem_cons.mp he with rfl | he
      · exact ⟨e, List.mem_cons_self _ _, h1, h2, l0, hl0, hx0⟩
      · obtain ⟨e2, he2, g1, g2, g3⟩ := ih ⟨e, he, h1, h2, l0, hl0, hx0⟩
        exact ⟨e2, List.mem_cons_of_mem _ he2, g1, g2, g3⟩

theorem foldl_pushNote_pres_note (t : Track) :
    ∀ (ns : List Note) (s : List Track) {k1 k2 : ℤ} {x : Note},
      (∃ e ∈ s, e.channelNumber = k1 ∧ e.instrumentNumber = k2 ∧ x ∈ e.notes) →
      ∃ e ∈ ns.foldl (fun s n =>
          let n2 := resolveNote t n
          pushNote s t.name n2.channel n2.instrument n2) s,
        e.channelNumber = k1 ∧ e.instrumentNumber = k2 ∧ x ∈ e.notes := by
  intro ns
  induction ns with
  | nil => intro s _ _ _ h; exact h
  | cons n ns ih =>
    intro s k1 k2 x h
    rw [List.foldl_cons]
    exact ih _ (pushNote_mem_mono h _ _ _ _)

theorem ccfold_inner_pres_note (t : Track) (k : CCKey) :
    ∀ (cs : List ControlChange) (s : List Track) {k1 k2 : ℤ} {x : Note},
      (∃ e ∈ s, e.channelNumber = k1 ∧ e.instrumentNumber = k2 ∧ x ∈ e.notes) →
      ∃ e ∈ cs.foldl (fun s c =>
          let c2 := resolveCC t c
          pushCC s t.name c2.channel c2.instrument k c2) s,
        e.channelNumber = k1 ∧ e.instrumentNumber = k2 ∧ x ∈ e.notes := by
  intro cs
  induction cs with
  | nil => intro s _ _ _ h; exact h
  | cons c cs ih =>
    intro s k1 k2 x h
    rw [List.foldl_cons]
    exact ih _ (pushCC_mem_notes_mono h _ _ _ _ _)

theorem ccfold_pres_note (t : Track) :
    ∀ (kls : List (CCKey × List ControlChange)) (s : List Track) {k1 k2 : ℤ} {x : Note},
      (∃ e ∈ s, e.channelNumber = k1 ∧ e.instrumentNumber = k2 ∧ x ∈ e.notes) →
      ∃ e ∈ kls.foldl (fun s kl =>
          kl.2.foldl (fun s c =>
            let c2 := resolveCC t c
            pushCC s t.name c2.channel c2.instrument kl.1 c2) s) s,
        e.channelNumber = k1 ∧ e.instrumentNumber = k2 ∧ x ∈ e.notes := by
  intro kls
  induction kls with
  | nil => intro s _ _ _ h; exact h
  | cons kl kls ih =>
    intro s k1 k2 x h
    rw [List.foldl_cons]
    exact ih _ (ccfold_inner_pres_note t kl.1 kl.2 s h)

theorem ccfold_inner_pres_cc (t : Track) (k : CCKey) :
    ∀ (cs : List ControlChange) (s : List Track) {k1 k2 : ℤ} {kk : CCKey}
      {x : ControlChange},
      (∃ e ∈ s, e.channelNumber = k1 ∧ e.instrumentNumber = k2 ∧
          ∃ l, (kk, l) ∈ e.controlChanges ∧ x ∈ l) →
      ∃ e ∈ cs.foldl (fun s c =>
          let c2 := resolveCC t c
          pushCC s t.name c2.channel c2.instrument k c2) s,
        e.channelNumber = k1 ∧ e.instrumentNumber = k2 ∧
          ∃ l, (kk, l) ∈ e.controlChanges ∧ x ∈ l := by
  intro cs
  induction cs with
  | nil => intro s _ _ _ _ h; exact h
  | cons c cs ih =>
    intro s k1 k2 kk x h
    rw [List.foldl_cons]
    exact ih _ (pushCC_mem_cc_mono h _ _ _ _ _)

theorem ccfold_pres_cc (t : Track) :
    ∀ (kls : List (CCKey × List ControlChange)) (s : List Track) {k1 k2 : ℤ}
      {kk : CCKey} {x : ControlChange},
      (∃ e ∈ s, e.channelNumber = k1 ∧ e.instrumentNumber = k2 ∧
          ∃ l, (kk, l) ∈ e.controlChanges ∧ x ∈ l) →
      ∃ e ∈ kls.foldl (fun s kl =>
          kl.2.foldl (fun s c =>
            let c2 := resolveCC t c
            pushCC s t.name c2.channel c2.instrument kl.1 c2) s) s,
        e.channelNumber = k1 ∧ e.instrumentNumber = k2 ∧
          ∃ l, (kk, l) ∈ e.controlChanges ∧ x ∈ l := by
  intro kls
  induction kls with
  | nil => intro s _ _ _ _ h; exact h
  | cons kl kls ih =>
    intro s k1 k2 kk x h
    rw [List.foldl_cons]
    exact ih _ (ccfold_inner_pres_cc t kl.1 kl.2 s h)

theorem note_mem_notesfold (t : Track) :
    ∀ (ns : List Note) (s : List Track) (x : Note), x ∈ ns →
      ∃ e ∈ ns.foldl (fun s n =>
          let n2 := resolveNote t n
          pushNote s t.name n2.channel n2.instrument n2) s,
        e.channelNumber = (resolveNote t x).channel ∧
        e.instrumentNumber = (resolveNote t x).instrument ∧
        resolveNote t x ∈ e.notes := by
  intro ns
  induction ns with
  | nil => intro s x hx; simp at hx
  | cons n ns ih =>
    intro s x hx
    rw [List.foldl_cons]
    rcases List.mem_cons.mp hx with rfl | hx
    · exact foldl_pushNote_pres_note t ns _
        (pushNote_mem_new t.name (resolveNote t x).channel (resolveNote t x).instrument
          (resolveNote t x) s)
    · exact ih _ x hx

theorem cc_mem_ccfold_inner (t : Track) (k : CCKey) :
    ∀ (cs : List ControlChange) (s : List Track) (x : ControlChange), x ∈ cs →
      ∃ e ∈ cs.foldl (fun s c =>
          let c2 := resolveCC t c
          pushCC s t.name c2.channel c2.instrument k c2) s,
        e.channelNumber = (resolveCC t x).channel ∧
        e.instrumentNumber = (resolveCC t x).instrument ∧
        ∃ l, (k, l) ∈ e.controlChanges ∧ resolveCC t x ∈ l := by
  intro cs
  induction cs with
  | nil => intro s x hx; simp at hx
  | cons c cs ih =>
    intro s x hx
    rw [List.foldl_cons]
    rcases List.mem_cons.mp hx with rfl | hx
    · exact ccfold_inner_pres_cc t k cs _
        (pushCC_mem_new t.name (resolveCC t x).channel (resolveCC t x).instrument
          k (resolveCC t x) s)
    · exact ih _ x hx

theorem cc_mem_ccfold (t : Track) :
    ∀ (kls : List (CCKey × List ControlChange)) (s : List Track)
      (kl : CCKey × List ControlChange), kl ∈ kls →
      ∀ x ∈ kl.2,
        ∃ e ∈ kls.foldl (fun s kl =>
            kl.2.foldl (fun s c =>
              let c2 := resolveCC t c
              pushCC s t.name c2.channel c2.instrument kl.1 c2) s) s,
          e.channelNumber = (resolveCC t x).channel ∧
          e.instrumentNumber = (resolveCC t x).instrument ∧
          ∃ l, (kl.1, l) ∈ e.controlChanges ∧ resolveCC t x ∈ l := by
  intro kls
  induction kls with
  | nil => intro s kl hkl; simp at hkl
  | cons kl0 kls ih =>
    intro s kl hkl x hx
    rw [List.foldl_cons]
    rcases List.mem_cons.mp hkl with rfl | hkl
    · exact ccfold_pres_cc t kls _ (cc_mem_ccfold_inner t kl.1 kl.2 s x hx)
    · exact ih _ kl hkl x hx

theorem mem_splitOutput_of {t e : Track} (he : e ∈ splitRawTrack t)
    (hnn : 0 ≤ e.channelNumber ∧ 0 ≤ e.instrumentNumber) : e ∈ splitOutput t := by
  unfold splitOutput
  rw [List.mem_insertionSort]
  exact List.mem_filter.mpr ⟨he, decide_eq_true hnn⟩

/-- C8: when splitting, each note's and control change's effective channel is
its own channel if set, else the raw track's channel; its effective
instrument is its own instrument if set, else the raw track's instrument,
else 0; and (under the §3 data-model ranges) the resolved element ends up in
an output sub-track whose (channelNumber, instrumentNumber) key is exactly
that effective (channel, instrument) pair — for control changes, under its
own controller key inside that sub-track. -/
theorem C8_split_placement (t : Track) (hv : TrackValid t) :
    (∀ n ∈ t.notes, ∃ e ∈ splitOutput t,
        e.channelNumber = resolveChannel t.channelNumber n.channel ∧
        e.instrumentNumber = resolveInstrument t.instrumentNumber n.instrument ∧
        resolveNote t n ∈ e.notes) ∧
    (∀ kl ∈ t.controlChanges, ∀ c ∈ kl.2, ∃ e ∈ splitOutput t,
        e.channelNumber = resolveChannel t.channelNumber c.channel ∧
        e.instrumentNumber = resolveInstrument t.instrumentNumber c.instrument ∧
        ∃ l, (kl.1, l) ∈ e.controlChanges ∧ resolveCC t c ∈ l) := by
  obtain ⟨hti, hns, hcc⟩ := hv
  constructor
  · intro n hn
    have base := note_mem_notesfold t t.notes [] n hn
    have hsplit := ccfold_pres_note t t.controlChanges _ base
    obtain ⟨e, he, h1, h2, h3⟩ := hsplit
    refine ⟨e, mem_splitOutput_of he ?_, h1, h2, h3⟩
    constructor
    · exact h1 ▸ resolveChannel_nonneg (hns n hn).1
    · exact h2 ▸ resolveInstrument_nonneg (hns n hn).2 hti
  · intro kl hkl c hc
    have base := cc_mem_ccfold t t.controlChanges
      (t.notes.foldl (fun s n =>
        let n2 := resolveNote t n
        pushNote s t.name n2.channel n2.instrument n2) []) kl hkl c hc
    obtain ⟨e, he, h1, h2, h3⟩ := base
    refine ⟨e, mem_splitOutput_of he ?_, h1, h2, h3⟩
    constructor
    · exact h1 ▸ resolveChannel_nonneg (hcc kl hkl c hc).1
    · exact h2 ▸ resolveInstrument_nonneg (hcc kl hkl c hc).2 hti

/-- Witness for C6 at a concrete one-track collection: two input notes, two
output notes after splitting. -/
theorem C6_witness :
    (∀ t ∈ [sampleRawTrack], TrackValid t) ∧
      notesCount (splitTracks [sampleRawTrack]) =
        ([sampleRawTrack].map fun t => t.notes.length).sum :=
  ⟨by decide, C6_splitter_counts [sampleRawTrack] (by decide)⟩

/-- Witness for C8 at the same concrete raw track. -/
theorem C8_witness :
    TrackValid sampleRawTrack ∧
      ((∀ n ∈ sampleRawTrack.notes, ∃ e ∈ splitOutput sampleRawTrack,
          e.channelNumber = resolveChannel sampleRawTrack.channelNumber n.channel ∧
          e.instrumentNumber =
            resolveInstrument sampleRawTrack.instrumentNumber n.instrument ∧
          resolveNote sampleRawTrack n ∈ e.notes) ∧
        (∀ kl ∈ sampleRawTrack.controlChanges, ∀ c ∈ kl.2,
          ∃ e ∈ splitOutput sampleRawTrack,
            e.channelNumber = resolveChannel sampleRawTrack.channelNumber c.channel ∧
            e.instrumentNumber =
              resolveInstrument sampleRawTrack.instrumentNumber c.instrument ∧
            ∃ l, (kl.1, l) ∈ e.controlChanges ∧ resolveCC sampleRawTrack c ∈ l)) :=
  ⟨by decide, C8_split_placement sampleRawTrack (by decide)⟩

end MidiConvert
